import Mathlib

/-!
# Verification of the github-repo-stats snapshot reconciliation core

Shallow embedding of the data-handling core of `analyze.py`:

* `analyse_view_clones_ts_fragments` (scalar views/clones time-series
  fragments): concatenate all fragment rows, sort by timestamp, and group by
  exact timestamp taking the per-column maximum
  (`df_agg = dfa.groupby(dfa.index).max()`).
* `analyse_referrer_snapshots` (categorical referrer snapshots): parse the
  snapshot time from each file name, tag each row with it, pivot by referrer
  name, rank referrers by their maximum observed `count_unique`, and build an
  aligned top-N table.

Timestamps are modelled as natural numbers (UTC instants in a fixed encoding,
order-preserving), counter values as natural numbers (GitHub traffic counts
are non-negative integers).
-/

/-! ## Scalar time-series fragments (`analyse_view_clones_ts_fragments`)

A fragment row is one CSV row: a timestamp (the `time_iso8601` index value)
together with the values of the counter columns (`views_unique`,
`views_total`, `clones_unique`, `clones_total`, ...).  The embedding keeps
the column count `k` abstract and stores the counter values positionally. -/

/-- One row of a views/clones CSV fragment: timestamp plus counter values
(one entry per counter column, in a fixed column order). -/
structure SRow where
  t : Nat
  vals : List Nat
deriving DecidableEq, Repr

/-- The rows of the concatenated dataframe `dfa` sharing the exact
timestamp `t` (the group `dfa.groupby(dfa.index)` forms at key `t`). -/
def rowsAt (rows : List SRow) (t : Nat) : List SRow :=
  rows.filter (fun r => r.t == t)

/-- Per-column maximum over a list of rows: the value pandas' grouped
`.max()` computes for column `i`.  A missing column position contributes 0,
which never occurs for rows respecting the schema length. -/
def fieldMax (rows : List SRow) (i : Nat) : Nat :=
  (rows.map (fun r => r.vals.getD i 0)).foldr max 0

/-- The reconciled value vector at timestamp `t`: for each of the `k`
counter columns independently, the maximum over all rows at `t`
(`dfa.groupby(dfa.index).max()`, one group). -/
def reconValue (k : Nat) (rows : List SRow) (t : Nat) : List Nat :=
  (List.range k).map (fieldMax (rowsAt rows t))

/-- The sorted list of distinct timestamps appearing in the concatenated
rows: pandas sorts the group keys ascending (`sort_index` plus the default
sorted `groupby`). -/
def tsOf (rows : List SRow) : List Nat :=
  List.insertionSort (· ≤ ·) (rows.map SRow.t).dedup

/-- The Time-Series Reconciler: `dfa = pd.concat(dfs)`;
`df_agg = dfa.groupby(dfa.index).max()` (analyze.py lines 375-394).
One output row per distinct timestamp, ascending, each holding the
per-column maxima of its group. -/
def reconcile (k : Nat) (frags : List (List SRow)) : List SRow :=
  (tsOf frags.flatten).map (fun t => SRow.mk t (reconValue k frags.flatten t))

/-! ### Helper lemmas about `foldr max 0` -/

theorem le_foldr_max (l : List Nat) (x : Nat) (hx : x ∈ l) :
    x ≤ l.foldr max 0 := by
  induction l with
  | nil => cases hx
  | cons a t ih =>
    rcases List.mem_cons.mp hx with rfl | hxt
    · exact le_max_left _ _
    · exact le_trans (ih hxt) (le_max_right _ _)

theorem foldr_max_mem (l : List Nat) (hl : l ≠ []) :
    l.foldr max 0 ∈ l := by
  induction l with
  | nil => exact absurd rfl hl
  | cons a t ih =>
    cases t with
    | nil => simp
    | cons b u =>
      rcases le_total ((b :: u).foldr max 0) a with h | h
      · have hm : (a :: b :: u).foldr max 0 = a := max_eq_left h
        rw [hm]
        exact List.mem_cons_self _ _
      · have hm : (a :: b :: u).foldr max 0 = (b :: u).foldr max 0 := max_eq_right h
        rw [hm]
        exact List.mem_cons_of_mem _ (ih (by simp))

theorem foldr_max_perm {l₁ l₂ : List Nat} (p : l₁.Perm l₂) (b : Nat) :
    l₁.foldr max b = l₂.foldr max b := by
  induction p generalizing b with
  | nil => rfl
  | cons x _ ih => simp [ih]
  | swap x y l => simp [← max_assoc, max_comm x y]
  | trans _ _ ih₁ ih₂ => exact (ih₁ b).trans (ih₂ b)

/-! ### Helper lemmas about the reconciled structure -/

theorem getD_range_map (k i : Nat) (f : Nat → Nat) (hi : i < k) :
    (((List.range k).map f).getD i 0) = f i := by
  rw [List.getD_eq_getElem?_getD, List.getElem?_map, List.getElem?_range hi]
  rfl

theorem map_range_getD (v : List Nat) :
    (List.range v.length).map (fun i => v.getD i 0) = v := by
  induction v with
  | nil => rfl
  | cons a t ih =>
    rw [List.length_cons, List.range_succ_eq_map, List.map_cons, List.map_map]
    have h2 : (List.range t.length).map ((fun i => (a :: t).getD i 0) ∘ Nat.succ)
        = (List.range t.length).map (fun i => t.getD i 0) :=
      List.map_congr_left (fun i _ => rfl)
    rw [h2, ih]
    simp

theorem nodup_filter_eq_single (ts : List Nat) (t : Nat)
    (hnd : ts.Nodup) (ht : t ∈ ts) :
    ts.filter (fun u => u == t) = [t] := by
  induction ts with
  | nil => cases ht
  | cons a rest ih =>
    rcases List.nodup_cons.mp hnd with ⟨ha, hrest⟩
    rcases List.mem_cons.mp ht with rfl | htr
    · have hnone : rest.filter (fun u => u == t) = [] := by
        rw [List.filter_eq_nil_iff]
        intro b hb
        simp only [beq_iff_eq]
        exact fun hbt => ha (hbt ▸ hb)
      simp [List.filter_cons, hnone]
    · have hat : a ≠ t := fun h => ha (h ▸ htr)
      rw [List.filter_cons]
      simp only [beq_iff_eq, hat, if_false]
      exact ih hrest htr

/-- Filtering the rows built over a duplicate-free timestamp list picks out
exactly the one row built at `t`. -/
theorem rowsAt_map_builder (ts : List Nat) (g : Nat → List Nat) (t : Nat)
    (hnd : ts.Nodup) (ht : t ∈ ts) :
    rowsAt (ts.map (fun u => SRow.mk u (g u))) t = [SRow.mk t (g t)] := by
  unfold rowsAt
  rw [List.filter_map]
  have : (fun r => r.t == t) ∘ (fun u => SRow.mk u (g u)) = (fun u => u == t) := rfl
  rw [this, nodup_filter_eq_single ts t hnd ht]
  rfl

theorem tsOf_sorted (rows : List SRow) : List.Sorted (· ≤ ·) (tsOf rows) :=
  List.sorted_insertionSort _ _

theorem tsOf_nodup (rows : List SRow) : (tsOf rows).Nodup :=
  (List.perm_insertionSort _ _).symm.nodup (List.nodup_dedup _)

theorem tsOf_mem (rows : List SRow) (t : Nat) :
    t ∈ tsOf rows ↔ t ∈ rows.map SRow.t := by
  rw [tsOf, List.mem_insertionSort, List.mem_dedup]

theorem reconcile_map_t (k : Nat) (frags : List (List SRow)) :
    (reconcile k frags).map SRow.t = tsOf frags.flatten := by
  rw [reconcile, List.map_map]
  exact List.map_id _

/-! ### Concrete fragments from the spec's end-to-end example

Dates are encoded as `YYYYMMDD` naturals; the single counter column is
`clones_total`. -/

/-- Fragment 1 of the end-to-end example: `(2020-12-01, clones_total=10)`,
`(2020-12-07, clones_total=73)`. -/
def exFragment1 : List SRow := [⟨20201201, [10]⟩, ⟨20201207, [73]⟩]

/-- Fragment 2 of the end-to-end example: `(2020-12-07, clones_total=18)`,
`(2020-12-10, clones_total=25)`. -/
def exFragment2 : List SRow := [⟨20201207, [18]⟩, ⟨20201210, [25]⟩]

/-- C1: for every collection of scalar fragments, the reconciled value at
each timestamp `t`, for each counter field `i` independently, is the maximum
of field `i` over all concatenated rows with timestamp exactly `t`: it is
attained by some such row and dominates all of them.  A timestamp carried by
a single row passes through unchanged, and the spec's two-fragment example
reconciles to `[(2020-12-01,10), (2020-12-07,73), (2020-12-10,25)]`. -/
theorem reconciled_value_is_fieldwise_max :
    (∀ (k : Nat) (frags : List (List SRow)) (t i : Nat), i < k →
        t ∈ frags.flatten.map SRow.t →
        ((reconValue k frags.flatten t).getD i 0
            ∈ (rowsAt frags.flatten t).map (fun r => r.vals.getD i 0)
          ∧ ∀ r ∈ rowsAt frags.flatten t,
              r.vals.getD i 0 ≤ (reconValue k frags.flatten t).getD i 0))
    ∧ (∀ (k : Nat) (rows : List SRow) (t : Nat) (r : SRow),
        rowsAt rows t = [r] → r.vals.length = k → reconValue k rows t = r.vals)
    ∧ reconcile 1 [exFragment1, exFragment2]
        = [⟨20201201, [10]⟩, ⟨20201207, [73]⟩, ⟨20201210, [25]⟩] := by
  refine ⟨?_, ?_, ?_⟩
  · intro k frags t i hik ht
    have hval : (reconValue k frags.flatten t).getD i 0
        = fieldMax (rowsAt frags.flatten t) i := getD_range_map k i _ hik
    have hne : (rowsAt frags.flatten t).map (fun r => r.vals.getD i 0) ≠ [] := by
      rcases List.mem_map.mp ht with ⟨r, hr, hrt⟩
      have : r ∈ rowsAt frags.flatten t :=
        List.mem_filter.mpr ⟨hr, by simp [hrt]⟩
      intro hcon
      rw [List.map_eq_nil_iff] at hcon
      rw [hcon] at this
      cases this
    constructor
    · rw [hval]
      exact foldr_max_mem _ hne
    · intro r hr
      rw [hval]
      exact le_foldr_max _ _ (List.mem_map.mpr ⟨r, hr, rfl⟩)
  · intro k rows t r hfilter hlen
    rw [reconValue, hfilter]
    calc (List.range k).map (fieldMax [r])
        = (List.range k).map (fun i => r.vals.getD i 0) :=
          List.map_congr_left (fun i _ => by
            simp [fieldMax])
      _ = (List.range r.vals.length).map (fun i => r.vals.getD i 0) := by rw [hlen]
      _ = r.vals := map_range_getD r.vals
  · decide

/-- Witness for C1: the shared timestamp 2020-12-07 of the example, counter
field 0 (`clones_total`). -/
theorem reconciled_value_is_fieldwise_max_witness :
    (reconValue 1 ([exFragment1, exFragment2] : List (List SRow)).flatten 20201207).getD 0 0
        ∈ (rowsAt ([exFragment1, exFragment2] : List (List SRow)).flatten 20201207).map
            (fun r => r.vals.getD 0 0)
      ∧ ∀ r ∈ rowsAt ([exFragment1, exFragment2] : List (List SRow)).flatten 20201207,
          r.vals.getD 0 0
            ≤ (reconValue 1 ([exFragment1, exFragment2] : List (List SRow)).flatten 20201207).getD 0 0 :=
  reconciled_value_is_fieldwise_max.1 1 [exFragment1, exFragment2] 20201207 0
    (by decide) (by decide)

/-- C5: the reconciled series' timestamps are strictly increasing, and a
timestamp occurs in the output iff it occurs in some fragment row (together
with strict monotonicity: exactly one entry per distinct input timestamp). -/
theorem reconcile_timestamps_strictly_increasing (k : Nat) (frags : List (List SRow)) :
    List.Pairwise (· < ·) ((reconcile k frags).map SRow.t)
    ∧ ∀ t, t ∈ (reconcile k frags).map SRow.t ↔ t ∈ frags.flatten.map SRow.t := by
  constructor
  · rw [reconcile_map_t]
    have hs : List.Pairwise (· ≤ ·) (tsOf frags.flatten) := tsOf_sorted frags.flatten
    have hn : List.Pairwise (· ≠ ·) (tsOf frags.flatten) := tsOf_nodup frags.flatten
    exact (hs.and hn).imp (fun h => lt_of_le_of_ne h.1 h.2)
  · intro t
    rw [reconcile_map_t]
    exact tsOf_mem _ t

/-- C2: reconciliation is idempotent: reconciling the reconciled output,
treated as a single fragment, returns it unchanged. -/
theorem reconcile_idempotent (k : Nat) (frags : List (List SRow)) :
    reconcile k [reconcile k frags] = reconcile k frags := by
  have hflat : ([reconcile k frags] : List (List SRow)).flatten = reconcile k frags := by
    simp
  have hmap : (reconcile k frags).map SRow.t = tsOf frags.flatten := reconcile_map_t k frags
  have hnodup : (tsOf frags.flatten).Nodup := tsOf_nodup _
  have hts : tsOf (reconcile k frags) = tsOf frags.flatten := by
    rw [tsOf, hmap, List.dedup_eq_self.mpr hnodup]
    exact List.Sorted.insertionSort_eq (tsOf_sorted _)
  rw [reconcile, hflat, hts]
  refine List.map_congr_left (fun t ht => ?_)
  have hrow : rowsAt (reconcile k frags) t
      = [SRow.mk t (reconValue k frags.flatten t)] :=
    rowsAt_map_builder (tsOf frags.flatten) (fun u => reconValue k frags.flatten u) t hnodup ht
  have hval : reconValue k (reconcile k frags) t = reconValue k frags.flatten t := by
    rw [reconValue, hrow]
    have hlen : (reconValue k frags.flatten t).length = k := by
      rw [reconValue, List.length_map, List.length_range]
    calc (List.range k).map (fieldMax [SRow.mk t (reconValue k frags.flatten t)])
        = (List.range k).map (fun i => (reconValue k frags.flatten t).getD i 0) :=
          List.map_congr_left (fun i _ => by simp [fieldMax])
      _ = (List.range (reconValue k frags.flatten t).length).map
            (fun i => (reconValue k frags.flatten t).getD i 0) := by rw [hlen]
      _ = reconValue k frags.flatten t := map_range_getD _
  rw [hval]

/-- C10: reconciliation is independent of the order in which the fragments
are concatenated. -/
theorem reconcile_order_independent (k : Nat) (fs fs' : List (List SRow))
    (h : fs.Perm fs') : reconcile k fs = reconcile k fs' := by
  have hrows : fs.flatten.Perm fs'.flatten := h.flatten
  have hts : tsOf fs.flatten = tsOf fs'.flatten := by
    refine List.eq_of_perm_of_sorted ?_ (tsOf_sorted _) (tsOf_sorted _)
    have h1 : (fs.flatten.map SRow.t).dedup.Perm (fs'.flatten.map SRow.t).dedup :=
      (hrows.map SRow.t).dedup
    exact ((List.perm_insertionSort _ _).trans h1).trans
      (List.perm_insertionSort _ _).symm
  have hval : ∀ t, reconValue k fs.flatten t = reconValue k fs'.flatten t := by
    intro t
    rw [reconValue, reconValue]
    refine List.map_congr_left (fun i _ => ?_)
    exact foldr_max_perm (((hrows.filter _).map _)) 0
  rw [reconcile, reconcile, hts]
  exact List.map_congr_left (fun t _ => by rw [hval])

/-- Witness for C10: swapping the two example fragments. -/
theorem reconcile_order_independent_witness :
    reconcile 1 [exFragment1, exFragment2] = reconcile 1 [exFragment2, exFragment1] :=
  reconcile_order_independent 1 [exFragment1, exFragment2] [exFragment2, exFragment1]
    (by decide)

/-! ## Referrer snapshots (`analyse_referrer_snapshots`)

One CSV row of a referrer snapshot carries a referrer name and numeric
fields; of those, the pipeline's outputs depend only on `count_unique`
(`rdf["count_unique"]` is the only value column read), so the embedding
keeps the name and `count_unique`.  Each file is tagged with the snapshot
time parsed from its name (modelled below for claim C8); rows are tagged
with it (`df["time"] = df.attrs["snapshot_time"]`), concatenated, and
pivoted by referrer name. -/

/-- One row of a referrer snapshot CSV (after the `referrers` → `referrer`
rename): the referrer name and its `count_unique` value. -/
structure RRow where
  referrer : String
  count_unique : Nat
deriving DecidableEq, Repr

/-- A parsed referrer snapshot file: the snapshot time (from the file name)
and its rows. -/
structure Snapshot where
  time : Nat
  rows : List RRow
deriving DecidableEq, Repr

/-- A row of the concatenated frame `dfa`: snapshot-time-tagged referrer
observation. -/
structure TRow where
  referrer : String
  time : Nat
  count_unique : Nat
deriving DecidableEq, Repr

/-- `df["time"] = df.attrs["snapshot_time"]`: every row of a snapshot is
tagged with that snapshot's time (analyze.py lines 185-186). -/
def tagRows (s : Snapshot) : List TRow :=
  s.rows.map (fun r => TRow.mk r.referrer s.time r.count_unique)

/-- `dfa = pd.concat(dfs)`: all tagged rows of all snapshots (line 188). -/
def allRows (snaps : List Snapshot) : List TRow :=
  (snaps.map tagRows).flatten

/-- Ascending order on (time, value) pairs used by `rdf.sort_index()`. -/
def timeLE (a b : Nat × Nat) : Prop := a.1 ≤ b.1

instance : DecidableRel timeLE := fun a b => Nat.decLe a.1 b.1

/-- The raw per-referrer time series (lines 192-203): select the rows of
`dfa` whose `referrer` equals `name`, keep (time, count_unique), sort by
time ascending. -/
def seriesOf (snaps : List Snapshot) (name : String) : List (Nat × Nat) :=
  List.insertionSort timeLE
    (((allRows snaps).filter (fun r => r.referrer == name)).map
      (fun r => (r.time, r.count_unique)))

/-- `rdf["count_unique"].max()` (line 225): the maximum observed
`count_unique` of a referrer, 0 for a referrer never observed. -/
def maxCU (snaps : List Snapshot) (name : String) : Nat :=
  ((seriesOf snaps name).map Prod.snd).foldr max 0

/-- The descending ranking order used by
`sorted(ref_max_cu_map.items(), key=lambda i: i[1], reverse=True)`
(lines 229-232): `a` before `b` iff `b`'s value is at most `a`'s. -/
def rankLE (a b : String × Nat) : Prop := b.2 ≤ a.2

instance : DecidableRel rankLE := fun a b => Nat.decLe b.2 a.2

instance : IsTotal (String × Nat) rankLE := ⟨fun a b => le_total b.2 a.2⟩

instance : IsTrans (String × Nat) rankLE := ⟨fun _ _ _ hab hbc => le_trans hbc hab⟩

/-- The sorted (name, max count_unique) ranking.  CPython's `sorted` with
`reverse=True` is stable descending; `order` is the iteration order of the
Python set `referrers` (lines 177-179), made explicit here because set
iteration order is unspecified (hash randomization).  Insertion sort keeps
an earlier element in front of any tied later element, which is exactly the
stability guarantee of `sorted`. -/
def rankItems (snaps : List Snapshot) (order : List String) : List (String × Nat) :=
  List.insertionSort rankLE (order.map (fun n => (n, maxCU snaps n)))

/-- `top_n_rnames = list(sorted_dict.keys())[:top_n]` with `top_n = 5`
(lines 234-235). -/
def topNames (snaps : List Snapshot) (order : List String) : List String :=
  ((rankItems snaps order).map Prod.fst).take 5

/-- `order` is a legitimate iteration order of the Python set `referrers`:
duplicate-free and containing exactly the referrer names occurring in the
concatenated rows. -/
def isValidEnum (snaps : List Snapshot) (order : List String) : Prop :=
  order.Nodup
    ∧ (∀ n ∈ order, n ∈ (allRows snaps).map TRow.referrer)
    ∧ (∀ n ∈ (allRows snaps).map TRow.referrer, n ∈ order)

/-- Two sorted lists that are permutations of one another and have
duplicate-free ranking keys are equal. -/
theorem sorted_perm_eq_of_nodup_keys :
    ∀ (l₁ l₂ : List (String × Nat)), l₁.Perm l₂ →
      List.Sorted rankLE l₁ → List.Sorted rankLE l₂ →
      (l₁.map Prod.snd).Nodup → l₁ = l₂ := by
  intro l₁
  induction l₁ with
  | nil =>
    intro l₂ hp _ _ _
    exact hp.nil_eq
  | cons a t₁ ih =>
    intro l₂ hp hs₁ hs₂ hnd
    cases l₂ with
    | nil => exact absurd hp.symm.nil_eq (by simp)
    | cons b t₂ =>
      by_cases hab : b = a
      · subst hab
        have htail := ih t₂ hp.cons_inv (List.sorted_cons.mp hs₁).2
          (List.sorted_cons.mp hs₂).2 (by
            rw [List.map_cons, List.nodup_cons] at hnd
            exact hnd.2)
        rw [htail]
      · exfalso
        have hb₁ : b ∈ a :: t₁ := hp.mem_iff.mpr (List.mem_cons_self _ _)
        have hbt₁ : b ∈ t₁ := (List.mem_cons.mp hb₁).resolve_left hab
        have h1 : rankLE a b := (List.sorted_cons.mp hs₁).1 b hbt₁
        have ha₂ : a ∈ b :: t₂ := hp.mem_iff.mp (List.mem_cons_self _ _)
        have hat₂ : a ∈ t₂ :=
          (List.mem_cons.mp ha₂).resolve_left (fun h => hab h.symm)
        have h2 : rankLE b a := (List.sorted_cons.mp hs₂).1 a hat₂
        have heq : a.2 = b.2 := le_antisymm h2 h1
        rw [List.map_cons, List.nodup_cons] at hnd
        exact hnd.1 (heq ▸ List.mem_map.mpr ⟨b, hbt₁, rfl⟩)

/-- The referrer snapshot collection of the spec's top-N example: maxima
A=50, B=40, C=30, D=20, E=10, F=5. -/
def exTop : List Snapshot :=
  [⟨0, [⟨"A", 50⟩, ⟨"B", 40⟩, ⟨"C", 30⟩, ⟨"D", 20⟩, ⟨"E", 10⟩, ⟨"F", 5⟩]⟩]

/-- C3: the ranking is sorted descending by the per-referrer maximum
`count_unique`; each ranked entry records the maximum of its referrer, which
comes from the enumerated set; every entry selected into the top 5 dominates
every entry cut off; and on the spec's example (maxima 50, 40, 30, 20, 10, 5)
the selection is exactly `[A, B, C, D, E]` for every legitimate iteration
order of the referrer set. -/
theorem topn_selects_highest_maxima :
    (∀ (snaps : List Snapshot) (order : List String),
        List.Pairwise rankLE (rankItems snaps order)
        ∧ (∀ p ∈ rankItems snaps order, p.2 = maxCU snaps p.1 ∧ p.1 ∈ order)
        ∧ ∀ p ∈ (rankItems snaps order).take 5,
            ∀ q ∈ (rankItems snaps order).drop 5, q.2 ≤ p.2)
    ∧ ∀ order : List String, isValidEnum exTop order →
        topNames exTop order = ["A", "B", "C", "D", "E"] := by
  constructor
  · intro snaps order
    have hsorted : List.Pairwise rankLE (rankItems snaps order) :=
      List.sorted_insertionSort rankLE _
    refine ⟨hsorted, ?_, ?_⟩
    · intro p hp
      have hp' : p ∈ order.map (fun n => (n, maxCU snaps n)) :=
        (List.perm_insertionSort rankLE _).subset hp
      rcases List.mem_map.mp hp' with ⟨n, hn, rfl⟩
      exact ⟨rfl, hn⟩
    · intro p hp q hq
      rw [← List.take_append_drop 5 (rankItems snaps order)] at hsorted
      exact (List.pairwise_append.mp hsorted).2.2 p hp q hq
  · rintro order ⟨hnd, hsub, hsup⟩
    have hnames : (allRows exTop).map TRow.referrer = ["A", "B", "C", "D", "E", "F"] := by
      decide
    have hperm : order.Perm ["A", "B", "C", "D", "E", "F"] := by
      refine List.perm_of_nodup_nodup_toFinset_eq hnd (by decide) ?_
      ext n
      simp only [List.mem_toFinset]
      constructor
      · intro h
        rw [← hnames]
        exact hsub n h
      · intro h
        exact hsup n (hnames ▸ h)
    have hitems : (order.map (fun n => (n, maxCU exTop n))).Perm
        (["A", "B", "C", "D", "E", "F"].map (fun n => (n, maxCU exTop n))) :=
      hperm.map _
    have hchain : (rankItems exTop order).Perm
        (["A", "B", "C", "D", "E", "F"].map (fun n => (n, maxCU exTop n))) :=
      (List.perm_insertionSort rankLE _).trans hitems
    have hnodupkeys : ((rankItems exTop order).map Prod.snd).Nodup := by
      have h1 := hchain.map Prod.snd
      have h2 : ((["A", "B", "C", "D", "E", "F"].map
          (fun n => (n, maxCU exTop n))).map Prod.snd).Nodup := by decide
      exact h1.symm.nodup h2
    have heq := sorted_perm_eq_of_nodup_keys
      (rankItems exTop order) (rankItems exTop ["A", "B", "C", "D", "E", "F"])
      (hchain.trans (List.perm_insertionSort rankLE _).symm)
      (List.sorted_insertionSort rankLE _) (List.sorted_insertionSort rankLE _)
      hnodupkeys
    rw [topNames, heq]
    decide

/-- Witness for C3: a reversed enumeration order of the example's referrer
set still selects `[A, B, C, D, E]`. -/
theorem topn_selects_highest_maxima_witness :
    topNames exTop ["F", "E", "D", "C", "B", "A"] = ["A", "B", "C", "D", "E"] :=
  topn_selects_highest_maxima.2 ["F", "E", "D", "C", "B", "A"]
    (by unfold isValidEnum; refine ⟨?_, ?_, ?_⟩ <;> decide)

/-! ### Stability of the ranking (claim C4)

CPython's `sorted` is stable, so referrers with equal maxima keep the order
in which `sorted` receives them — which is the iteration order of the
Python set `referrers`, not the order of first appearance in the input
files.  The lemmas below prove the stability half; the counterexample shows
the received order need not be the original/insertion order. -/

theorem filter_key_orderedInsert (a : String × Nat) (l : List (String × Nat)) (v : Nat) :
    (List.orderedInsert rankLE a l).filter (fun p => p.2 == v)
      = if a.2 = v then a :: l.filter (fun p => p.2 == v)
        else l.filter (fun p => p.2 == v) := by
  induction l with
  | nil =>
    by_cases hav : a.2 = v <;> simp [List.orderedInsert, hav]
  | cons b t ih =>
    rw [List.orderedInsert]
    by_cases hr : rankLE a b
    · rw [if_pos hr]
      by_cases hav : a.2 = v <;> simp [List.filter_cons, hav]
    · rw [if_neg hr, List.filter_cons, ih]
      have hne : b.2 ≠ a.2 := fun h => hr (le_of_eq h)
      by_cases hav : a.2 = v
      · have hbv : ¬(b.2 = v) := fun h => hne (h.trans hav.symm)
        simp [List.filter_cons, hav, hbv]
      · by_cases hbv : b.2 = v <;> simp [List.filter_cons, hav, hbv]

theorem filter_key_insertionSort (l : List (String × Nat)) (v : Nat) :
    (List.insertionSort rankLE l).filter (fun p => p.2 == v)
      = l.filter (fun p => p.2 == v) := by
  induction l with
  | nil => rfl
  | cons a t ih =>
    rw [List.insertionSort, filter_key_orderedInsert, List.filter_cons]
    by_cases hav : a.2 = v <;> simp [hav, ih]

/-- Helper for `firstSeen`: keep the first occurrence of each name, given
the names already seen. -/
def firstSeenAux : List String → List String → List String
  | [], _ => []
  | a :: rest, seen =>
    if a ∈ seen then firstSeenAux rest seen
    else a :: firstSeenAux rest (a :: seen)

/-- Modelled from the claim's words: the "original/insertion order" of
referrer names is the order of first appearance in the concatenated
snapshot rows. -/
def firstSeen (l : List String) : List String := firstSeenAux l []

/-- Tie example: referrers A and B share the maximum `count_unique` 10; A
appears before B in the input rows. -/
def exTie : List Snapshot := [⟨0, [⟨"A", 10⟩, ⟨"B", 10⟩]⟩]

/-- Counterexample to C4 as stated: under the legitimate set-iteration
order `["B", "A"]`, the ranking lists B before A although both tie at
maximum 10 and A has the lower original/insertion (first-appearance) order;
the ranking differs from the one obtained from the first-appearance order,
so the tie outcome is not determined by the inputs alone. -/
theorem tie_break_not_insertion_order :
    isValidEnum exTie ["B", "A"]
    ∧ firstSeen ((allRows exTie).map TRow.referrer) = ["A", "B"]
    ∧ maxCU exTie "A" = maxCU exTie "B"
    ∧ topNames exTie ["B", "A"] = ["B", "A"]
    ∧ topNames exTie ["B", "A"]
        ≠ topNames exTie (firstSeen ((allRows exTie).map TRow.referrer)) := by
  refine ⟨?_, by decide, by decide, by decide, by decide⟩
  unfold isValidEnum
  refine ⟨?_, ?_, ?_⟩ <;> decide

/-- C4 amended: the ranking is deterministic given the enumeration order of
the referrer set, and referrers with identical maxima appear in the ranking
exactly in that enumeration order (the stable-sort guarantee); the
enumeration order itself is Python set-iteration order, which is not tied
to the original/insertion order of the input rows. -/
theorem rank_ties_follow_enumeration_order (snaps : List Snapshot)
    (order : List String) (v : Nat) :
    (rankItems snaps order).filter (fun p => p.2 == v)
      = (order.map (fun n => (n, maxCU snaps n))).filter (fun p => p.2 == v) :=
  filter_key_insertionSort (order.map (fun n => (n, maxCU snaps n))) v

/-! ### The aligned top-N table (claim C7)

`df_top_cu = pd.DataFrame()` followed by
`df_top_cu[rname] = rdf["count_unique"]` in a loop (lines 244-248).
Assigning a Series as a new column of an *empty* DataFrame adopts the
Series' index; assigning to a *non-empty* DataFrame aligns (reindexes) the
Series to the existing row index: positions without a matching series entry
are unset (NaN), series entries outside the index are dropped. -/

/-- State of `df_top_cu`: the adopted row index once one exists, and the
columns appended so far (each cell optional: `none` is NaN/unset). -/
def addColumn (acc : Option (List Nat) × List (String × List (Option Nat)))
    (nm : String) (series : List (Nat × Nat)) :
    Option (List Nat) × List (String × List (Option Nat)) :=
  match acc.1 with
  | none =>
    (some (series.map Prod.fst), acc.2 ++ [(nm, series.map (fun p => some p.2))])
  | some idx =>
    (some idx, acc.2 ++ [(nm, idx.map (fun t => series.lookup t))])

/-- The loop `for rname in top_n_rnames: df_top_cu[rname] = rdf["count_unique"]`
starting from the empty DataFrame. -/
def buildTable (snaps : List Snapshot) (names : List String) :
    Option (List Nat) × List (String × List (Option Nat)) :=
  names.foldl (fun acc nm => addColumn acc nm (seriesOf snaps nm)) (none, [])

/-- The row index of the aligned table (empty if no columns were added). -/
def tableIndex (snaps : List Snapshot) (names : List String) : List Nat :=
  (buildTable snaps names).1.getD []

/-- Modelled from the spec: "rows are indexed by the union of timestamps at
which any of them was observed" — the sorted union of the selected
referrers' observation timestamps. -/
def unionIndex (snaps : List Snapshot) (names : List String) : List Nat :=
  List.insertionSort (· ≤ ·)
    ((names.map (fun n => (seriesOf snaps n).map Prod.fst)).flatten).dedup

theorem lookup_eq_none_iff (l : List (Nat × Nat)) (t : Nat) :
    l.lookup t = none ↔ t ∉ l.map Prod.fst := by
  induction l with
  | nil => simp
  | cons p rest ih =>
    obtain ⟨k, v⟩ := p
    by_cases h : t = k
    · subst h
      simp [List.lookup_cons]
    · rw [List.lookup_cons]
      have hf : (t == k) = false := beq_false_of_ne h
      rw [hf]
      simp [ih, h]

theorem lookup_mem (l : List (Nat × Nat)) (t c : Nat) (h : l.lookup t = some c) :
    (t, c) ∈ l := by
  induction l with
  | nil => cases h
  | cons p rest ih =>
    obtain ⟨k, v⟩ := p
    by_cases htk : t = k
    · subst htk
      rw [List.lookup_cons] at h
      simp only [beq_self_eq_true] at h
      cases h
      exact List.mem_cons_self _ _
    · rw [List.lookup_cons] at h
      have hf : (t == k) = false := beq_false_of_ne htk
      rw [hf] at h
      exact List.mem_cons_of_mem _ (ih h)

theorem lookup_of_mem_nodup (l : List (Nat × Nat)) (p : Nat × Nat)
    (hnd : (l.map Prod.fst).Nodup) (hp : p ∈ l) : l.lookup p.1 = some p.2 := by
  induction l with
  | nil => cases hp
  | cons q rest ih =>
    obtain ⟨k, v⟩ := q
    rw [List.map_cons, List.nodup_cons] at hnd
    rcases List.mem_cons.mp hp with rfl | hpr
    · rw [List.lookup_cons]
      simp
    · rw [List.lookup_cons]
      have hne : (p.1 == k) = false := by
        refine beq_false_of_ne (fun h => hnd.1 ?_)
        exact h ▸ List.mem_map.mpr ⟨p, hpr, rfl⟩
      rw [hne]
      exact ih hnd.2 hpr

theorem seriesOf_mem (snaps : List Snapshot) (name : String) (t c : Nat) :
    (t, c) ∈ seriesOf snaps name ↔ TRow.mk name t c ∈ allRows snaps := by
  rw [seriesOf, List.mem_insertionSort, List.mem_map]
  constructor
  · rintro ⟨r, hr, heq⟩
    rcases List.mem_filter.mp hr with ⟨hmem, hname⟩
    have hrn : r.referrer = name := by simpa using hname
    obtain ⟨rn, rt, rc⟩ := r
    cases heq
    cases hrn
    exact hmem
  · intro h
    exact ⟨TRow.mk name t c, List.mem_filter.mpr ⟨h, by simp⟩, rfl⟩

theorem seriesOf_fst_mem (snaps : List Snapshot) (name : String) (t : Nat) :
    t ∈ (seriesOf snaps name).map Prod.fst
      ↔ ∃ c, TRow.mk name t c ∈ allRows snaps := by
  rw [List.mem_map]
  constructor
  · rintro ⟨⟨t', c⟩, hp, rfl⟩
    exact ⟨c, (seriesOf_mem snaps name t' c).mp hp⟩
  · rintro ⟨c, hc⟩
    exact ⟨(t, c), (seriesOf_mem snaps name t c).mpr hc, rfl⟩

theorem foldl_addColumn_fst (snaps : List Snapshot) :
    ∀ (rest : List String) (acc : Option (List Nat) × List (String × List (Option Nat)))
      (idx : List Nat), acc.1 = some idx →
      (rest.foldl (fun acc nm => addColumn acc nm (seriesOf snaps nm)) acc).1 = some idx := by
  intro rest
  induction rest with
  | nil => intro acc idx h; exact h
  | cons nm rest ih =>
    intro acc idx h
    rw [List.foldl_cons]
    refine ih _ idx ?_
    rw [addColumn, h]

theorem foldl_addColumn_snd (snaps : List Snapshot) :
    ∀ (rest : List String) (acc : Option (List Nat) × List (String × List (Option Nat)))
      (idx : List Nat), acc.1 = some idx →
      (rest.foldl (fun acc nm => addColumn acc nm (seriesOf snaps nm)) acc).2
        = acc.2 ++ rest.map (fun nm => (nm, idx.map (fun t => (seriesOf snaps nm).lookup t))) := by
  intro rest
  induction rest with
  | nil => intro acc idx _; simp
  | cons nm rest ih =>
    intro acc idx h
    rw [List.foldl_cons]
    have hstep : addColumn acc nm (seriesOf snaps nm)
        = (some idx, acc.2 ++ [(nm, idx.map (fun t => (seriesOf snaps nm).lookup t))]) := by
      rw [addColumn, h]
    rw [hstep, ih _ idx rfl]
    simp

theorem buildTable_eq (snaps : List Snapshot) (n₀ : String) (rest : List String) :
    buildTable snaps (n₀ :: rest)
      = (some ((seriesOf snaps n₀).map Prod.fst),
          (n₀, (seriesOf snaps n₀).map (fun p => some p.2))
            :: rest.map (fun nm => (nm, ((seriesOf snaps n₀).map Prod.fst).map
                (fun t => (seriesOf snaps nm).lookup t)))) := by
  rw [buildTable, List.foldl_cons]
  have hfirst : addColumn (none, ([] : List (String × List (Option Nat)))) n₀ (seriesOf snaps n₀)
      = (some ((seriesOf snaps n₀).map Prod.fst),
          [(n₀, (seriesOf snaps n₀).map (fun p => some p.2))]) := by
    rw [addColumn]
    simp
  rw [hfirst]
  refine Prod.ext ?_ ?_
  · exact foldl_addColumn_fst snaps rest
      (some ((seriesOf snaps n₀).map Prod.fst),
        [(n₀, (seriesOf snaps n₀).map (fun p => some p.2))])
      ((seriesOf snaps n₀).map Prod.fst) rfl
  · rw [foldl_addColumn_snd snaps rest
      (some ((seriesOf snaps n₀).map Prod.fst),
        [(n₀, (seriesOf snaps n₀).map (fun p => some p.2))])
      ((seriesOf snaps n₀).map Prod.fst) rfl]
    simp

/-- Snapshot collection where the top-ranked referrer A (maxima: A=50,
B=40) is not observed at time 3, while B is: A's series covers times
{1, 2}, B's covers {2, 3}. -/
def exDrop : List Snapshot :=
  [⟨1, [⟨"A", 50⟩]⟩, ⟨2, [⟨"A", 50⟩, ⟨"B", 40⟩]⟩, ⟨3, [⟨"B", 40⟩]⟩]

/-- Counterexample to C7 as stated: the aligned table's row index is the
first (top-ranked) referrer's observation timestamps `[1, 2]`, not the
union `[1, 2, 3]` of all top-N referrers' timestamps; B's observation at
time 3 is dropped from the table. -/
theorem aligned_table_index_not_union :
    topNames exDrop ["A", "B"] = ["A", "B"]
    ∧ isValidEnum exDrop ["A", "B"]
    ∧ tableIndex exDrop (topNames exDrop ["A", "B"]) = [1, 2]
    ∧ unionIndex exDrop (topNames exDrop ["A", "B"]) = [1, 2, 3]
    ∧ tableIndex exDrop (topNames exDrop ["A", "B"])
        ≠ unionIndex exDrop (topNames exDrop ["A", "B"])
    ∧ (3 : Nat) ∈ (seriesOf exDrop "B").map Prod.fst := by
  refine ⟨by decide, ?_, by decide, by decide, by decide, by decide⟩
  unfold isValidEnum
  refine ⟨?_, ?_, ?_⟩ <;> decide

/-- C7 amended: the aligned table's row index is the observation-timestamp
sequence of the *first* selected referrer (not the union over all selected
referrers); within that index, every cell of every column is the lookup of
the column's referrer series at the row's timestamp — `none` (unset,
never the number 0) exactly when that referrer has no snapshot row at that
timestamp, and the observed `count_unique` of an actual row otherwise. -/
theorem aligned_table_index_and_cells (snaps : List Snapshot) (n₀ : String)
    (rest : List String)
    (hnd : ∀ nm ∈ n₀ :: rest, ((seriesOf snaps nm).map Prod.fst).Nodup) :
    tableIndex snaps (n₀ :: rest) = (seriesOf snaps n₀).map Prod.fst
    ∧ (∀ p ∈ (buildTable snaps (n₀ :: rest)).2,
        p.2 = (tableIndex snaps (n₀ :: rest)).map
          (fun t => (seriesOf snaps p.1).lookup t))
    ∧ (∀ nm t, (seriesOf snaps nm).lookup t = none
        ↔ ∀ c, TRow.mk nm t c ∉ allRows snaps)
    ∧ (∀ nm t c, (seriesOf snaps nm).lookup t = some c
        → TRow.mk nm t c ∈ allRows snaps) := by
  have hidx : tableIndex snaps (n₀ :: rest) = (seriesOf snaps n₀).map Prod.fst := by
    rw [tableIndex, buildTable_eq]
    rfl
  refine ⟨hidx, ?_, ?_, ?_⟩
  · intro p hp
    rw [buildTable_eq] at hp
    simp only at hp
    rcases List.mem_cons.mp hp with rfl | hrest
    · -- the first column: the adopted series itself
      rw [hidx]
      simp only
      rw [List.map_map]
      refine (List.map_congr_left (fun q hq => ?_)).symm
      exact lookup_of_mem_nodup (seriesOf snaps n₀) q
        (hnd n₀ (List.mem_cons_self _ _)) hq
    · rcases List.mem_map.mp hrest with ⟨nm, _, rfl⟩
      simp only
      rw [hidx]
  · intro nm t
    rw [lookup_eq_none_iff]
    constructor
    · intro h c hc
      exact h ((seriesOf_fst_mem snaps nm t).mpr ⟨c, hc⟩)
    · intro h hmem
      rcases (seriesOf_fst_mem snaps nm t).mp hmem with ⟨c, hc⟩
      exact h c hc
  · intro nm t c h
    exact (seriesOf_mem snaps nm t c).mp (lookup_mem _ t c h)

/-- Witness for C7's amended theorem: the dropped-timestamp example, top
names `["A", "B"]`. -/
theorem aligned_table_index_and_cells_witness :
    tableIndex exDrop ["A", "B"] = (seriesOf exDrop "A").map Prod.fst
    ∧ (∀ p ∈ (buildTable exDrop ["A", "B"]).2,
        p.2 = (tableIndex exDrop ["A", "B"]).map
          (fun t => (seriesOf exDrop p.1).lookup t))
    ∧ (∀ nm t, (seriesOf exDrop nm).lookup t = none
        ↔ ∀ c, TRow.mk nm t c ∉ allRows exDrop)
    ∧ (∀ nm t c, (seriesOf exDrop nm).lookup t = some c
        → TRow.mk nm t c ∈ allRows exDrop) :=
  aligned_table_index_and_cells exDrop "A" ["B"] (by decide)

/-! ## Loader schema validation (claim C6)

Both loaders keep a running set `column_names_seen`; a file whose column
set is non-empty-checked against it and differs causes `sys.exit(1)`
(analyze.py lines 163-166 for referrer snapshots, 361-364 for scalar
fragments).  Columns are modelled as a finite set of column identifiers;
a file is represented by its column set.  The Python loop is

    if column_names_seen and set(df.columns) != column_names_seen: exit(1)
    column_names_seen.update(df.columns)

mirrored literally, including the truthiness test on the (initially empty)
seen-set.  `Except.error` models the fatal `sys.exit(1)`; the `ok` payload
is the list of successfully loaded files, so an aborted run yields no
partial output by construction. -/

def loadAllSchemas : List (Finset Nat) → Finset Nat → List (Finset Nat) →
    Except Unit (List (Finset Nat))
  | [], _, acc => .ok acc.reverse
  | c :: rest, seen, acc =>
    if seen ≠ ∅ ∧ c ≠ seen then .error ()
    else loadAllSchemas rest (seen ∪ c) (c :: acc)

theorem loadAllSchemas_ok_all_eq :
    ∀ (cols : List (Finset Nat)) (seen : Finset Nat) (acc l : List (Finset Nat)),
      loadAllSchemas cols seen acc = .ok l → seen ≠ ∅ → ∀ c ∈ cols, c = seen := by
  intro cols
  induction cols with
  | nil => intro _ _ _ _ _ c hc; cases hc
  | cons c₀ rest ih =>
    intro seen acc l hok hseen c hc
    rw [loadAllSchemas] at hok
    by_cases hcond : seen ≠ ∅ ∧ c₀ ≠ seen
    · rw [if_pos hcond] at hok
      cases hok
    · rw [if_neg hcond] at hok
      have hc₀ : c₀ = seen := by
        by_contra hne
        exact hcond ⟨hseen, hne⟩
      have hunion : seen ∪ c₀ = seen := by
        rw [hc₀, Finset.union_self]
      rw [hunion] at hok
      rcases List.mem_cons.mp hc with rfl | hcr
      · exact hc₀
      · exact ih seen (c₀ :: acc) l hok hseen c hcr

/-- C6: if two input files of the same kind expose differing column sets
(and, as for any real CSV, no file has an empty column set), the loader
aborts fatally and returns no partial output. -/
theorem schema_mismatch_aborts (cols : List (Finset Nat))
    (hne : ∀ c ∈ cols, c.Nonempty)
    (c₁ c₂ : Finset Nat) (h1 : c₁ ∈ cols) (h2 : c₂ ∈ cols) (hd : c₁ ≠ c₂) :
    loadAllSchemas cols ∅ [] = .error () := by
  cases hres : loadAllSchemas cols ∅ [] with
  | error e => cases e; rfl
  | ok l =>
    exfalso
    cases cols with
    | nil => cases h1
    | cons c₀ rest =>
      have hstep : loadAllSchemas (c₀ :: rest) ∅ [] = loadAllSchemas rest (∅ ∪ c₀) [c₀] := by
        rw [loadAllSchemas]
        simp
      rw [hstep, Finset.empty_union] at hres
      have hc₀ne : c₀ ≠ ∅ :=
        Finset.nonempty_iff_ne_empty.mp (hne c₀ (List.mem_cons_self _ _))
      have hall := loadAllSchemas_ok_all_eq rest c₀ [c₀] l hres hc₀ne
      have hmem : ∀ c ∈ c₀ :: rest, c = c₀ := by
        intro c hc
        rcases List.mem_cons.mp hc with rfl | hcr
        · rfl
        · exact hall c hcr
      exact hd ((hmem c₁ h1).trans (hmem c₂ h2).symm)

/-- Witness for C6: two one-file schemas `{0}` and `{0, 1}` differ, so the
load aborts. -/
theorem schema_mismatch_aborts_witness :
    loadAllSchemas [{0}, {0, 1}] ∅ [] = .error () :=
  schema_mismatch_aborts [{0}, {0, 1}] (by decide) {0} {0, 1}
    (by decide) (by decide) (by decide)

/-! ## Snapshot-time parsing from file names (claim C8)

Lines 153-157: the part of the base name before `_top_referrers_snapshot.csv`
is parsed with `datetime.strptime(pprefix, "%Y-%m-%d_%H%M%S")` and localized
to UTC; a non-matching prefix raises an uncaught `ValueError`, aborting the
run.  CPython's `_strptime` compiles the format into the regular expression

    (?P<Y>\d\d\d\d)-(?P<m>1[0-2]|0[1-9]|[1-9])-(?P<d>3[01]|[12]\d|0[1-9]|[1-9])
    _(?P<H>2[0-3]|[0-1]\d|\d)(?P<M>[0-5]\d|\d)(?P<S>6[0-1]|[0-5]\d|\d)

so month, day, hour, minute and second tokens may also appear without zero
padding (variable width), resolved by the regex engine's leftmost-preference
backtracking; `_strptime` then requires the match to consume the whole
string, and the `datetime` constructor validates the ranges (year at least
1, day bounded by the month length with leap years, second below 60 even
though the regex admits leap seconds 60-61).  The model below reproduces
exactly this: per-directive candidate lists in the regex's alternative
order, backtracking across directives, the full-consumption check, and the
constructor validation. -/

/-- One row of a loaded referrer dataframe: the `time` cell is `none` until
the aggregator's in-place column assignment fills it. -/
structure PRow where
  referrer : String
  count_unique : Nat
  time : Option Nat
deriving DecidableEq, Repr

/-- A loaded referrer dataframe: rows plus the `snapshot_time` attribute
set during loading (`df.attrs["snapshot_time"]`). -/
structure PDF where
  snapshot_time : Nat
  rows : List PRow
deriving DecidableEq, Repr

/-- `df["time"] = df.attrs["snapshot_time"]`: the in-place addition of the
`time` column (lines 185-186). -/
def addTimeColumn (df : PDF) : PDF :=
  { df with rows := df.rows.map (fun r => { r with time := some df.snapshot_time }) }

/-- The state of the loaded referrer dataframes after the aggregator ran:
each got the `time` column assigned in place. -/
def aggregatorInputsAfter (dfs : List PDF) : List PDF :=
  dfs.map addTimeColumn

/-- The state of the loaded scalar fragments after the reconciler ran: the
reconciler only reads them (`pd.concat` copies; all in-place calls target
the new concatenated frame), so they are unchanged. -/
def reconcilerInputsAfter (frags : List (List SRow)) : List (List SRow) :=
  frags

/-- A row's content apart from the `time` cell. -/
def stripTime (r : PRow) : String × Nat := (r.referrer, r.count_unique)

/-- Counterexample to C9 as stated: after the aggregator runs, a loaded
referrer snapshot dataframe is not equal to its freshly loaded state — the
`time` cells changed from unset to the snapshot time. -/
theorem aggregator_mutates_inputs :
    aggregatorInputsAfter [⟨100, [⟨"A", 5, none⟩]⟩] ≠ [⟨100, [⟨"A", 5, none⟩]⟩] := by
  decide

/-- C9 amended: the Time-Series Reconciler leaves the loaded fragments
unchanged, while the Categorical Snapshot Aggregator mutates every loaded
referrer dataframe in place — but only by filling the `time` column with
that dataframe's snapshot time, preserving the snapshot time attribute and
all other row content. -/
theorem mutation_frame_conditions (frags : List (List SRow)) (dfs : List PDF) :
    reconcilerInputsAfter frags = frags
    ∧ aggregatorInputsAfter dfs = dfs.map addTimeColumn
    ∧ ∀ df ∈ dfs,
        (addTimeColumn df).snapshot_time = df.snapshot_time
        ∧ (addTimeColumn df).rows.map stripTime = df.rows.map stripTime
        ∧ ∀ r ∈ (addTimeColumn df).rows, r.time = some df.snapshot_time := by
  refine ⟨rfl, rfl, ?_⟩
  intro df _
  refine ⟨rfl, ?_, ?_⟩
  · rw [addTimeColumn]
    simp only [List.map_map]
    rfl
  · intro r hr
    rcases List.mem_map.mp hr with ⟨r₀, _, rfl⟩
    rfl

/-- Witness for C9's amended theorem: a one-dataframe state. -/
theorem mutation_frame_conditions_witness :
    reconcilerInputsAfter [exFragment1] = [exFragment1]
    ∧ aggregatorInputsAfter [⟨100, [⟨"A", 5, none⟩]⟩]
        = [(⟨100, [⟨"A", 5, none⟩]⟩ : PDF)].map addTimeColumn
    ∧ ∀ df ∈ [(⟨100, [⟨"A", 5, none⟩]⟩ : PDF)],
        (addTimeColumn df).snapshot_time = df.snapshot_time
        ∧ (addTimeColumn df).rows.map stripTime = df.rows.map stripTime
        ∧ ∀ r ∈ (addTimeColumn df).rows, r.time = some df.snapshot_time :=
  mutation_frame_conditions [exFragment1] [⟨100, [⟨"A", 5, none⟩]⟩]
